import Mathlib

/-!
Verification of the `attempt` selector (Rust crate `attempt`).

Shallow embedding of `src/lib.rs`.  The crate exposes a tagged union
`Value` (`Any` or `Number(i32)`), two helper loops `reduce_by_allowed`
and `reduce_by_preferred`, and the public entry point `attempt`.

The two helpers are `while` loops over a pair of cursors.  When the
current element of the filter vector is `Value::Any` neither cursor is
advanced, so the Rust loop does not terminate; we embed each loop as a
fuel-indexed recursion returning `Option (List Int)`, where `none`
means the loop has not finished within the given fuel.  One unit of
fuel is one iteration of the `while` body.  The wrapper functions run
the loop with fuel `original.length + filter.length`, which is shown
sufficient whenever the filter vector contains no `Value.Any`.

Values are `i32` in Rust; only comparisons are performed on them (no
arithmetic), so `Int` is a faithful carrier.  The Rust `match` on
`Ordering` (`cmp`) is rendered as the equivalent two-way `<` tests.
-/

/-- The `Value` enum from `src/lib.rs`: `Any` is the wildcard, `Number`
holds a regular value. -/
inductive Value where
  | Any : Value
  | Number : Int → Value
deriving DecidableEq

/-- The `while` loop of `reduce_by_allowed`, cursors `o` (into
`original`) and `a` (into `allowed`), fuel-indexed.  `none` means the
loop has not terminated within `fuel` iterations.  The produced list is
what the loop pushes onto `vec` from this state on. -/
def rbaLoop (original : List Int) (allowed : List Value) :
    Nat → Nat → Nat → Option (List Int)
  | 0, o, a =>
    if o < original.length ∧ a < allowed.length then none else some []
  | fuel + 1, o, a =>
    if h : o < original.length ∧ a < allowed.length then
      match allowed.get ⟨a, h.2⟩ with
      | Value.Any => rbaLoop original allowed fuel o a
      | Value.Number num =>
        if original.get ⟨o, h.1⟩ < num then
          rbaLoop original allowed fuel (o + 1) a
        else if num < original.get ⟨o, h.1⟩ then
          rbaLoop original allowed fuel o (a + 1)
        else
          Option.map (fun rest => original.get ⟨o, h.1⟩ :: rest)
            (rbaLoop original allowed fuel (o + 1) (a + 1))
    else some []

/-- `reduce_by_allowed` from `src/lib.rs`: runs the loop from cursors
`(0, 0)` with fuel `original.length + allowed.length` (sufficient for
every terminating run, see `rbaLoop_total`). -/
def reduce_by_allowed (original : List Int) (allowed : List Value) :
    Option (List Int) :=
  rbaLoop original allowed (original.length + allowed.length) 0 0

/-- The `while` loop of `reduce_by_preferred`, cursors `o` (into
`original`) and `p` (into `preferred`).  In the `Less` arm the Rust code
increments `o_pointer` and, when it just ran off the end, pushes
`original[o_pointer - 1]`, i.e. `original[o]`. -/
def rbpLoop (original : List Int) (preferred : List Value) :
    Nat → Nat → Nat → Option (List Int)
  | 0, o, p =>
    if o < original.length ∧ p < preferred.length then none else some []
  | fuel + 1, o, p =>
    if h : o < original.length ∧ p < preferred.length then
      match preferred.get ⟨p, h.2⟩ with
      | Value.Any => rbpLoop original preferred fuel o p
      | Value.Number num =>
        if original.get ⟨o, h.1⟩ < num then
          if original.length ≤ o + 1 then
            Option.map (fun rest => original.get ⟨o, h.1⟩ :: rest)
              (rbpLoop original preferred fuel (o + 1) p)
          else
            rbpLoop original preferred fuel (o + 1) p
        else if num < original.get ⟨o, h.1⟩ then
          Option.map (fun rest => original.get ⟨o, h.1⟩ :: rest)
            (rbpLoop original preferred fuel o (p + 1))
        else
          Option.map (fun rest => original.get ⟨o, h.1⟩ :: rest)
            (rbpLoop original preferred fuel (o + 1) (p + 1))
    else some []

/-- `reduce_by_preferred` from `src/lib.rs`. -/
def reduce_by_preferred (original : List Int) (preferred : List Value) :
    Option (List Int) :=
  rbpLoop original preferred (original.length + preferred.length) 0 0

/-- `attempt` from `src/lib.rs`: dispatch on whether `allowed` and
`preferred` contain `Value::Any`, then compose the two reductions.  The
composition threads the `Option` (fuel) through `bind`. -/
def attempt (available : List Int) (allowed preferred : List Value) :
    Option (List Int) :=
  if Value.Any ∈ allowed ∧ Value.Any ∈ preferred then
    some available
  else if Value.Any ∈ allowed then
    reduce_by_preferred available preferred
  else if Value.Any ∈ preferred then
    reduce_by_allowed available allowed
  else
    Option.bind (reduce_by_allowed available allowed)
      (fun av => reduce_by_preferred av preferred)

/-- Spec-side definition (from the spec's words, for comparison with the
code): `reduceByAllowed` "returns values present in both sequences (set
intersection), preserving order of appearance in `allowed`, skipping
non-`Number` entries". -/
def intersectSpec (original : List Int) (allowed : List Value) : List Int :=
  List.filter (fun v => decide (v ∈ original))
    (List.filterMap
      (fun x => match x with | Value.Any => none | Value.Number n => some n)
      allowed)

/-- Spec-side relation (from the spec's words, for comparison with the
code): `d` is the value `reduceByPreferred` should include for the
preference `p` — `p` itself when present in `original`, otherwise the
smallest available value greater than `p`, otherwise the largest
available value less than `p`. -/
def nearestPreferred (original : List Int) (p d : Int) : Prop :=
  (p ∈ original ∧ d = p)
  ∨ (p ∉ original ∧ d ∈ original ∧ p < d ∧
      ∀ v ∈ original, p < v → d ≤ v)
  ∨ (p ∉ original ∧ (∀ v ∈ original, ¬ p < v) ∧ d ∈ original ∧
      ∀ v ∈ original, v ≤ d)

instance (original : List Int) (p d : Int) :
    Decidable (nearestPreferred original p d) := by
  unfold nearestPreferred
  infer_instance

/-! ## Basic loop lemmas: exit states, termination, element provenance -/

/-- Once the `original` cursor has run off the end, both loops stop at
once and push nothing more. -/
lemma rbaLoop_exit (original : List Int) (allowed : List Value)
    (fuel o a : Nat) (h : original.length ≤ o ∨ allowed.length ≤ a) :
    rbaLoop original allowed fuel o a = some [] := by
  cases fuel with
  | zero => unfold rbaLoop; rw [if_neg (by omega)]
  | succ fuel => unfold rbaLoop; rw [dif_neg (by omega)]

/-- Exit analogue for the `reduce_by_preferred` loop. -/
lemma rbpLoop_exit (original : List Int) (preferred : List Value)
    (fuel o p : Nat) (h : original.length ≤ o ∨ preferred.length ≤ p) :
    rbpLoop original preferred fuel o p = some [] := by
  cases fuel with
  | zero => unfold rbpLoop; rw [if_neg (by omega)]
  | succ fuel => unfold rbpLoop; rw [dif_neg (by omega)]

/-- When `allowed` contains no wildcard, every iteration of the
`reduce_by_allowed` loop advances a cursor, so fuel bounded below by the
remaining cursor distance suffices. -/
lemma rbaLoop_total (original : List Int) (allowed : List Value)
    (hA : Value.Any ∉ allowed) :
    ∀ fuel o a,
      original.length - o + (allowed.length - a) ≤ fuel →
      (rbaLoop original allowed fuel o a).isSome = true := by
  intro fuel
  induction fuel with
  | zero =>
    intro o a hm
    unfold rbaLoop
    rw [if_neg (by omega)]
    rfl
  | succ fuel ih =>
    intro o a hm
    unfold rbaLoop
    by_cases h : o < original.length ∧ a < allowed.length
    · rw [dif_pos h]
      split
      · next heq => exact absurd (heq ▸ List.get_mem allowed _ _) hA
      · next num heq =>
        split_ifs with h1 h2
        · exact ih (o + 1) a (by omega)
        · exact ih o (a + 1) (by omega)
        · simpa using ih (o + 1) (a + 1) (by omega)
    · rw [dif_neg h]
      rfl

/-- Termination of the `reduce_by_preferred` loop on wildcard-free
preference vectors. -/
lemma rbpLoop_total (original : List Int) (preferred : List Value)
    (hP : Value.Any ∉ preferred) :
    ∀ fuel o p,
      original.length - o + (preferred.length - p) ≤ fuel →
      (rbpLoop original preferred fuel o p).isSome = true := by
  intro fuel
  induction fuel with
  | zero =>
    intro o p hm
    unfold rbpLoop
    rw [if_neg (by omega)]
    rfl
  | succ fuel ih =>
    intro o p hm
    unfold rbpLoop
    by_cases h : o < original.length ∧ p < preferred.length
    · rw [dif_pos h]
      split
      · next heq => exact absurd (heq ▸ List.get_mem preferred _ _) hP
      · next num heq =>
        split_ifs with h1 h2 h3
        · simpa using ih (o + 1) p (by omega)
        · exact ih (o + 1) p (by omega)
        · simpa using ih o (p + 1) (by omega)
        · simpa using ih (o + 1) (p + 1) (by omega)
    · rw [dif_neg h]
      rfl

/-- `reduce_by_allowed` terminates on wildcard-free `allowed`. -/
lemma reduce_by_allowed_total (original : List Int) (allowed : List Value)
    (hA : Value.Any ∉ allowed) :
    (reduce_by_allowed original allowed).isSome = true :=
  rbaLoop_total original allowed hA _ 0 0 (by omega)

/-- `reduce_by_preferred` terminates on wildcard-free `preferred`. -/
lemma reduce_by_preferred_total (original : List Int) (preferred : List Value)
    (hP : Value.Any ∉ preferred) :
    (reduce_by_preferred original preferred).isSome = true :=
  rbpLoop_total original preferred hP _ 0 0 (by omega)

/-- `attempt` terminates on every input: each helper is only reached
with a wildcard-free filter vector. -/
lemma attempt_isSome (available : List Int) (allowed preferred : List Value) :
    (attempt available allowed preferred).isSome = true := by
  unfold attempt
  split_ifs with h1 h2 h3
  · rfl
  · exact reduce_by_preferred_total available preferred
      (fun hp => h1 ⟨h2, hp⟩)
  · exact reduce_by_allowed_total available allowed
      (fun ha => h2 ha)
  · obtain ⟨m, hm⟩ := Option.isSome_iff_exists.mp
      (reduce_by_allowed_total available allowed (fun ha => h2 ha))
    rw [hm]
    exact reduce_by_preferred_total m preferred (fun hp => h3 hp)

/-- Every value the `reduce_by_allowed` loop pushes is an element of
`original` and occurs as a `Number` in `allowed`. -/
lemma rbaLoop_mem (original : List Int) (allowed : List Value) :
    ∀ fuel o a l, rbaLoop original allowed fuel o a = some l →
      ∀ v ∈ l, v ∈ original ∧ Value.Number v ∈ allowed := by
  intro fuel
  induction fuel with
  | zero =>
    intro o a l hl v hv
    unfold rbaLoop at hl
    split at hl
    · exact absurd hl (by simp)
    · cases hl; simp at hv
  | succ fuel ih =>
    intro o a l hl v hv
    unfold rbaLoop at hl
    split at hl
    · next h =>
      split at hl
      · exact ih o a l hl v hv
      · next num heq =>
        split_ifs at hl with h1 h2
        · exact ih (o + 1) a l hl v hv
        · exact ih o (a + 1) l hl v hv
        · obtain ⟨rest, hrest, hcons⟩ := Option.map_eq_some'.mp hl
          subst hcons
          rcases List.mem_cons.mp hv with hv | hv
          · subst hv
            refine ⟨List.get_mem original _ _, ?_⟩
            have hvnum : original.get ⟨o, h.1⟩ = num :=
              le_antisymm (not_lt.mp h2) (not_lt.mp h1)
            rw [hvnum, ← heq]
            exact List.get_mem allowed _ _
          · exact ih (o + 1) (a + 1) rest hrest v hv
    · cases hl; simp at hv

/-- Every value the `reduce_by_preferred` loop pushes is an element of
`original` (all three push sites push `original[o]`, the `Less` site
after the increment as `original[o_pointer - 1]`). -/
lemma rbpLoop_subset (original : List Int) (preferred : List Value) :
    ∀ fuel o p l, rbpLoop original preferred fuel o p = some l →
      ∀ v ∈ l, v ∈ original := by
  intro fuel
  induction fuel with
  | zero =>
    intro o p l hl v hv
    unfold rbpLoop at hl
    split at hl
    · exact absurd hl (by simp)
    · cases hl; simp at hv
  | succ fuel ih =>
    intro o p l hl v hv
    unfold rbpLoop at hl
    split at hl
    · next h =>
      split at hl
      · exact ih o p l hl v hv
      · next num heq =>
        split_ifs at hl with h1 h2 h3
        · obtain ⟨rest, hrest, hcons⟩ := Option.map_eq_some'.mp hl
          subst hcons
          rcases List.mem_cons.mp hv with hv | hv
          · exact hv ▸ List.get_mem original _ _
          · exact ih (o + 1) p rest hrest v hv
        · exact ih (o + 1) p l hl v hv
        · obtain ⟨rest, hrest, hcons⟩ := Option.map_eq_some'.mp hl
          subst hcons
          rcases List.mem_cons.mp hv with hv | hv
          · exact hv ▸ List.get_mem original _ _
          · exact ih o (p + 1) rest hrest v hv
        · obtain ⟨rest, hrest, hcons⟩ := Option.map_eq_some'.mp hl
          subst hcons
          rcases List.mem_cons.mp hv with hv | hv
          · exact hv ▸ List.get_mem original _ _
          · exact ih (o + 1) (p + 1) rest hrest v hv
    · cases hl; simp at hv

/-- Push accounting for the `reduce_by_preferred` loop: the `Greater`
and `Equal` sites advance `p_pointer` with each push, and the `Less`
site pushes only in the iteration that exhausts `original`, after which
the loop stops.  Hence at most `preferred.length - p` pushes remain. -/
lemma rbpLoop_length (original : List Int) (preferred : List Value) :
    ∀ fuel o p l, rbpLoop original preferred fuel o p = some l →
      l.length ≤ preferred.length - p := by
  intro fuel
  induction fuel with
  | zero =>
    intro o p l hl
    unfold rbpLoop at hl
    split at hl
    · exact absurd hl (by simp)
    · cases hl; simp
  | succ fuel ih =>
    intro o p l hl
    unfold rbpLoop at hl
    split at hl
    · next h =>
      split at hl
      · exact ih o p l hl
      · next num heq =>
        split_ifs at hl with h1 h2 h3
        · obtain ⟨rest, hrest, hcons⟩ := Option.map_eq_some'.mp hl
          have hexit : rbpLoop original preferred fuel (o + 1) p = some [] :=
            rbpLoop_exit original preferred fuel (o + 1) p (Or.inl h2)
          rw [hexit] at hrest
          cases hrest
          subst hcons
          have := h.2
          simp only [List.length_cons, List.length_nil]
          omega
        · exact ih (o + 1) p l hl
        · obtain ⟨rest, hrest, hcons⟩ := Option.map_eq_some'.mp hl
          subst hcons
          have := ih o (p + 1) rest hrest
          have := h.2
          simp only [List.length_cons]
          omega
        · obtain ⟨rest, hrest, hcons⟩ := Option.map_eq_some'.mp hl
          subst hcons
          have := ih (o + 1) (p + 1) rest hrest
          have := h.2
          simp only [List.length_cons]
          omega
    · cases hl; simp

/-- With the cursor parked on a `Value.Any` entry neither pointer
advances, so the `reduce_by_allowed` loop never terminates, whatever the
fuel. -/
lemma rbaLoop_any_diverge : ∀ fuel, rbaLoop [0] [Value.Any] fuel 0 0 = none := by
  intro fuel
  induction fuel with
  | zero =>
    unfold rbaLoop
    rw [if_pos (by constructor <;> decide)]
  | succ fuel ih =>
    unfold rbaLoop
    rw [dif_pos (by constructor <;> decide)]
    exact ih

/-- Divergence of the `reduce_by_preferred` loop on a wildcard. -/
lemma rbpLoop_any_diverge : ∀ fuel, rbpLoop [0] [Value.Any] fuel 0 0 = none := by
  intro fuel
  induction fuel with
  | zero =>
    unfold rbpLoop
    rw [if_pos (by constructor <;> decide)]
  | succ fuel ih =>
    unfold rbpLoop
    rw [dif_pos (by constructor <;> decide)]
    exact ih

/-! ## Dispatch equations of `attempt` -/

lemma attempt_eq_available (available : List Int) (allowed preferred : List Value)
    (h1 : Value.Any ∈ allowed) (h2 : Value.Any ∈ preferred) :
    attempt available allowed preferred = some available := by
  unfold attempt
  rw [if_pos ⟨h1, h2⟩]

lemma attempt_eq_rbp (available : List Int) (allowed preferred : List Value)
    (h1 : Value.Any ∈ allowed) (h2 : Value.Any ∉ preferred) :
    attempt available allowed preferred =
      reduce_by_preferred available preferred := by
  unfold attempt
  rw [if_neg (fun hc => h2 hc.2), if_pos h1]

lemma attempt_eq_rba (available : List Int) (allowed preferred : List Value)
    (h1 : Value.Any ∉ allowed) (h2 : Value.Any ∈ preferred) :
    attempt available allowed preferred =
      reduce_by_allowed available allowed := by
  unfold attempt
  rw [if_neg (fun hc => h1 hc.1), if_neg h1, if_pos h2]

lemma attempt_eq_bind (available : List Int) (allowed preferred : List Value)
    (h1 : Value.Any ∉ allowed) (h2 : Value.Any ∉ preferred) :
    attempt available allowed preferred =
      Option.bind (reduce_by_allowed available allowed)
        (fun av => reduce_by_preferred av preferred) := by
  unfold attempt
  rw [if_neg (fun hc => h1 hc.1), if_neg h1, if_neg h2]

/-! ## Claim theorems -/

/-- Claim C3: `attempt` dispatches as specified: `available` unchanged
when both filter vectors contain `Any`; `reduce_by_preferred` when only
`allowed` does; `reduce_by_allowed` when only `preferred` does; and the
composition of the two reductions otherwise. -/
theorem attempt_dispatch (available : List Int) (allowed preferred : List Value) :
    (Value.Any ∈ allowed → Value.Any ∈ preferred →
      attempt available allowed preferred = some available)
    ∧ (Value.Any ∈ allowed → Value.Any ∉ preferred →
      attempt available allowed preferred =
        reduce_by_preferred available preferred)
    ∧ (Value.Any ∉ allowed → Value.Any ∈ preferred →
      attempt available allowed preferred =
        reduce_by_allowed available allowed)
    ∧ (Value.Any ∉ allowed → Value.Any ∉ preferred →
      attempt available allowed preferred =
        Option.bind (reduce_by_allowed available allowed)
          (fun av => reduce_by_preferred av preferred)) :=
  ⟨attempt_eq_available available allowed preferred,
   attempt_eq_rbp available allowed preferred,
   attempt_eq_rba available allowed preferred,
   attempt_eq_bind available allowed preferred⟩

/-- Witness for C3 at concrete inputs, one per dispatch branch. -/
theorem attempt_dispatch_witness :
    attempt [240] [Value.Any] [Value.Any] = some [240]
    ∧ attempt [240] [Value.Any] [Value.Number 360] =
        reduce_by_preferred [240] [Value.Number 360]
    ∧ attempt [240] [Value.Number 360] [Value.Any] =
        reduce_by_allowed [240] [Value.Number 360]
    ∧ attempt [240] [Value.Number 360] [Value.Number 720] =
        Option.bind (reduce_by_allowed [240] [Value.Number 360])
          (fun av => reduce_by_preferred av [Value.Number 720]) :=
  ⟨(attempt_dispatch [240] [Value.Any] [Value.Any]).1
      (by decide) (by decide),
   (attempt_dispatch [240] [Value.Any] [Value.Number 360]).2.1
      (by decide) (by decide),
   (attempt_dispatch [240] [Value.Number 360] [Value.Any]).2.2.1
      (by decide) (by decide),
   (attempt_dispatch [240] [Value.Number 360] [Value.Number 720]).2.2.2
      (by decide) (by decide)⟩

/-- Claim C5: `attempt` is a total function of its three arguments (it is
a Lean function, hence deterministic) and every input — wildcards and
empty lists included — yields a result: the fuelled computation never
comes out as the `none` of a non-terminating run. -/
theorem attempt_total (available : List Int) (allowed preferred : List Value) :
    (attempt available allowed preferred).isSome = true :=
  attempt_isSome available allowed preferred

/-- Claim C6: When neither filter vector contains `Any`, every element of
the result of `attempt` lies in `available` and occurs as a `Number` in
`allowed`. -/
theorem attempt_result_in_intersection (available : List Int)
    (allowed preferred : List Value)
    (hA : Value.Any ∉ allowed) (hP : Value.Any ∉ preferred)
    (l : List Int) (hl : attempt available allowed preferred = some l)
    (v : Int) (hv : v ∈ l) :
    v ∈ available ∧ Value.Number v ∈ allowed := by
  rw [attempt_eq_bind available allowed preferred hA hP] at hl
  obtain ⟨m, hm, hl2⟩ := Option.bind_eq_some.mp hl
  have hvm : v ∈ m := rbpLoop_subset m preferred _ 0 0 l hl2 v hv
  exact rbaLoop_mem available allowed _ 0 0 m hm v hvm

/-- Witness for C6: `attempt([240,360,720],[360,720],[1080]) = [720]`
and `720` is available and allowed. -/
theorem attempt_result_in_intersection_witness :
    (720 : Int) ∈ ([240, 360, 720] : List Int)
    ∧ Value.Number 720 ∈ [Value.Number 360, Value.Number 720] :=
  attempt_result_in_intersection [240, 360, 720]
    [Value.Number 360, Value.Number 720] [Value.Number 1080]
    (by decide) (by decide) [720] (by decide) 720 (by decide)

/-- Claim C7: Whenever `reduce_by_preferred` terminates, its result is at
most as long as `preferred`. -/
theorem reduce_by_preferred_length (original : List Int)
    (preferred : List Value) (l : List Int)
    (hl : reduce_by_preferred original preferred = some l) :
    l.length ≤ preferred.length := by
  have := rbpLoop_length original preferred _ 0 0 l hl
  omega

/-- Witness for C7: `reduce_by_preferred([240,360,720],[360]) = [360]`. -/
theorem reduce_by_preferred_length_witness :
    ([360] : List Int).length ≤ [Value.Number 360].length :=
  reduce_by_preferred_length [240, 360, 720] [Value.Number 360] [360]
    (by decide)

/-- Claim C8: On an empty `available` the `reduce_by_preferred` loop
exits immediately, returning the empty list, for every `preferred`. -/
theorem reduce_by_preferred_empty (preferred : List Value) :
    reduce_by_preferred [] preferred = some [] :=
  rbpLoop_exit [] preferred _ 0 0 (Or.inl le_rfl)

/-- Claim C9: When the cursor sits on an `Any` entry neither pointer
advances: both helper loops run forever on such inputs (`none` for every
fuel), they do terminate whenever their filter vector is wildcard-free,
and `attempt` — whose guards keep wildcard-containing vectors away from
the helpers — terminates on every input. -/
theorem helpers_terminate_iff_no_any :
    (∀ fuel, rbaLoop [0] [Value.Any] fuel 0 0 = none)
    ∧ (∀ fuel, rbpLoop [0] [Value.Any] fuel 0 0 = none)
    ∧ (∀ (original : List Int) (allowed : List Value),
        Value.Any ∉ allowed →
        (reduce_by_allowed original allowed).isSome = true)
    ∧ (∀ (original : List Int) (preferred : List Value),
        Value.Any ∉ preferred →
        (reduce_by_preferred original preferred).isSome = true)
    ∧ (∀ (available : List Int) (allowed preferred : List Value),
        (attempt available allowed preferred).isSome = true) :=
  ⟨rbaLoop_any_diverge, rbpLoop_any_diverge,
   fun original allowed hA => reduce_by_allowed_total original allowed hA,
   fun original preferred hP =>
     reduce_by_preferred_total original preferred hP,
   fun available allowed preferred =>
     attempt_isSome available allowed preferred⟩

/-- Witness for C9 at concrete inputs. -/
theorem helpers_terminate_iff_no_any_witness :
    rbaLoop [0] [Value.Any] 5 0 0 = none
    ∧ rbpLoop [0] [Value.Any] 5 0 0 = none
    ∧ (reduce_by_allowed [240] [Value.Number 240]).isSome = true
    ∧ (reduce_by_preferred [240] [Value.Number 240]).isSome = true
    ∧ (attempt [240] [Value.Any] [Value.Any]).isSome = true :=
  ⟨helpers_terminate_iff_no_any.1 5,
   helpers_terminate_iff_no_any.2.1 5,
   helpers_terminate_iff_no_any.2.2.1 [240] [Value.Number 240] (by decide),
   helpers_terminate_iff_no_any.2.2.2.1 [240] [Value.Number 240] (by decide),
   helpers_terminate_iff_no_any.2.2.2.2 [240] [Value.Any] [Value.Any]⟩

/-- Claim C2, counterexample: `reduce_by_preferred` never removes
duplicates: with sorted `available = [240,360]` and sorted preferences
`[300, 310]` the `Greater` arm pushes `360` once per preference, and the
result `[360, 360]` contains a duplicate. -/
theorem reduce_by_preferred_dup_counterexample :
    ∃ l, reduce_by_preferred [240, 360]
        [Value.Number 300, Value.Number 310] = some l ∧ ¬ l.Nodup :=
  ⟨[360, 360], by decide, by decide⟩

/-- Claim C2, amended: There is no deduplication pass in
`reduce_by_preferred`: the function can return the same value several
times, as it does on `available = [240,360]`,
`preferred = [300, 310]`. -/
theorem reduce_by_preferred_no_dedup :
    reduce_by_preferred [240, 360] [Value.Number 300, Value.Number 310] =
      some [360, 360]
    ∧ ¬ ([360, 360] : List Int).Nodup :=
  ⟨by decide, by decide⟩

/-! ## Bounds-checked variants of the two loops (for the safety claim)

`rbaLoopChk` and `rbpLoopChk` perform every vector access of the Rust
code through `List.get?`; an out-of-range access — which in Rust would
panic — surfaces as `some (Except.error ())`.  The access
`original[o_pointer - 1]` of the `Less` arm appears literally as
`original.get? (o + 1 - 1)` after the increment of `o_pointer`. -/

def rbaLoopChk (original : List Int) (allowed : List Value) :
    Nat → Nat → Nat → Option (Except Unit (List Int))
  | 0, o, a =>
    if o < original.length ∧ a < allowed.length then none
    else some (Except.ok [])
  | fuel + 1, o, a =>
    if o < original.length ∧ a < allowed.length then
      match allowed.get? a with
      | none => some (Except.error ())
      | some Value.Any => rbaLoopChk original allowed fuel o a
      | some (Value.Number num) =>
        match original.get? o with
        | none => some (Except.error ())
        | some v =>
          if v < num then rbaLoopChk original allowed fuel (o + 1) a
          else if num < v then rbaLoopChk original allowed fuel o (a + 1)
          else
            Option.map (Except.map fun rest => v :: rest)
              (rbaLoopChk original allowed fuel (o + 1) (a + 1))
    else some (Except.ok [])

def rbpLoopChk (original : List Int) (preferred : List Value) :
    Nat → Nat → Nat → Option (Except Unit (List Int))
  | 0, o, p =>
    if o < original.length ∧ p < preferred.length then none
    else some (Except.ok [])
  | fuel + 1, o, p =>
    if o < original.length ∧ p < preferred.length then
      match preferred.get? p with
      | none => some (Except.error ())
      | some Value.Any => rbpLoopChk original preferred fuel o p
      | some (Value.Number num) =>
        match original.get? o with
        | none => some (Except.error ())
        | some v =>
          if v < num then
            if original.length ≤ o + 1 then
              match original.get? (o + 1 - 1) with
              | none => some (Except.error ())
              | some w =>
                Option.map (Except.map fun rest => w :: rest)
                  (rbpLoopChk original preferred fuel (o + 1) p)
            else rbpLoopChk original preferred fuel (o + 1) p
          else if num < v then
            Option.map (Except.map fun rest => v :: rest)
              (rbpLoopChk original preferred fuel o (p + 1))
          else
            Option.map (Except.map fun rest => v :: rest)
              (rbpLoopChk original preferred fuel (o + 1) (p + 1))
    else some (Except.ok [])

lemma rbaLoopChk_eq (original : List Int) (allowed : List Value) :
    ∀ fuel o a,
      rbaLoopChk original allowed fuel o a =
        Option.map Except.ok (rbaLoop original allowed fuel o a) := by
  intro fuel
  induction fuel with
  | zero =>
    intro o a
    unfold rbaLoopChk rbaLoop
    by_cases h : o < original.length ∧ a < allowed.length
    · rw [if_pos h, if_pos h]; rfl
    · rw [if_neg h, if_neg h]; rfl
  | succ fuel ih =>
    intro o a
    unfold rbaLoopChk rbaLoop
    by_cases h : o < original.length ∧ a < allowed.length
    · rw [if_pos h, dif_pos h, List.get?_eq_get h.2]
      cases hval : allowed.get ⟨a, h.2⟩ with
      | Any => exact ih o a
      | Number num =>
        dsimp only
        rw [List.get?_eq_get h.1]
        dsimp only
        split_ifs with h1 h2
        · exact ih (o + 1) a
        · exact ih o (a + 1)
        · rw [ih (o + 1) (a + 1)]
          cases rbaLoop original allowed fuel (o + 1) (a + 1) <;>
            simp [Except.map]
    · rw [if_neg h, dif_neg h]; rfl

lemma rbpLoopChk_eq (original : List Int) (preferred : List Value) :
    ∀ fuel o p,
      rbpLoopChk original preferred fuel o p =
        Option.map Except.ok (rbpLoop original preferred fuel o p) := by
  intro fuel
  induction fuel with
  | zero =>
    intro o p
    unfold rbpLoopChk rbpLoop
    by_cases h : o < original.length ∧ p < preferred.length
    · rw [if_pos h, if_pos h]; rfl
    · rw [if_neg h, if_neg h]; rfl
  | succ fuel ih =>
    intro o p
    unfold rbpLoopChk rbpLoop
    by_cases h : o < original.length ∧ p < preferred.length
    · rw [if_pos h, dif_pos h, List.get?_eq_get h.2]
      cases hval : preferred.get ⟨p, h.2⟩ with
      | Any => exact ih o p
      | Number num =>
        dsimp only
        rw [List.get?_eq_get h.1]
        dsimp only
        split_ifs with h1 h2
        · rw [Nat.add_sub_cancel, List.get?_eq_get h.1]
          dsimp only
          rw [ih (o + 1) p]
          cases rbpLoop original preferred fuel (o + 1) p <;>
            simp [Except.map]
        · exact ih (o + 1) p
        · rw [ih o (p + 1)]
          cases rbpLoop original preferred fuel o (p + 1) <;>
            simp [Except.map]
        · rw [ih (o + 1) (p + 1)]
          cases rbpLoop original preferred fuel (o + 1) (p + 1) <;>
            simp [Except.map]
    · rw [if_neg h, dif_neg h]; rfl

/-- Claim C10: Every vector access of the two helper loops is in bounds:
running the loops with every access bounds-checked (`List.get?`, where
`none` stands for the Rust panic) never produces the panic outcome, and
agrees with the unchecked embedding on every input, fuel and cursor
state.  In particular `original[o_pointer - 1]` in the `Less` arm of
`reduce_by_preferred` is evaluated only after `o_pointer` was just
incremented, so its index `o_pointer - 1` is in range. -/
theorem loops_never_panic :
    (∀ (original : List Int) (allowed : List Value) (fuel o a : Nat),
      rbaLoopChk original allowed fuel o a =
        Option.map Except.ok (rbaLoop original allowed fuel o a))
    ∧ (∀ (original : List Int) (preferred : List Value) (fuel o p : Nat),
      rbpLoopChk original preferred fuel o p =
        Option.map Except.ok (rbpLoop original preferred fuel o p)) :=
  ⟨fun original allowed => rbaLoopChk_eq original allowed,
   fun original preferred => rbpLoopChk_eq original preferred⟩

/-! ## Correctness of `reduce_by_allowed` on sorted inputs -/

lemma sorted_drop_lt (l : List Int) (hs : List.Sorted (· < ·) l) (n : Nat)
    (hn : n < l.length) :
    ∀ x ∈ l.drop (n + 1), l.get ⟨n, hn⟩ < x := by
  intro x hx
  have hp : List.Pairwise (· < ·) (l.drop n) :=
    List.Pairwise.sublist (List.drop_sublist n l) hs
  rw [List.drop_eq_getElem_cons hn] at hp
  have := (List.pairwise_cons.mp hp).1 x hx
  simpa [List.get_eq_getElem] using this

lemma sorted_drop_le (l : List Int) (hs : List.Sorted (· < ·) l) (n : Nat)
    (hn : n < l.length) :
    ∀ x ∈ l.drop n, l.get ⟨n, hn⟩ ≤ x := by
  intro x hx
  rw [List.drop_eq_getElem_cons hn] at hx
  rcases List.mem_cons.mp hx with hx | hx
  · rw [hx]
    simp [List.get_eq_getElem]
  · exact le_of_lt (sorted_drop_lt l hs n hn x hx)

/-- The two-pointer walk of `reduce_by_allowed`, from cursor state
`(o, a)`, computes exactly the entries of `as.drop a` that occur in
`original.drop o` — provided both lists are strictly ascending. -/
lemma rbaLoop_filter (original as : List Int)
    (hso : List.Sorted (· < ·) original) (hsa : List.Sorted (· < ·) as) :
    ∀ fuel o a l,
      rbaLoop original (as.map Value.Number) fuel o a = some l →
      l = (as.drop a).filter (fun v => decide (v ∈ original.drop o)) := by
  intro fuel
  induction fuel with
  | zero =>
    intro o a l hl
    unfold rbaLoop at hl
    split at hl
    · exact absurd hl (by simp)
    · next h =>
      cases hl
      rw [List.length_map] at h
      by_cases ha : as.length ≤ a
      · rw [List.drop_eq_nil_of_le ha]
        simp
      · have ho : original.length ≤ o := by omega
        rw [List.drop_eq_nil_of_le ho]
        simp
  | succ fuel ih =>
    intro o a l hl
    unfold rbaLoop at hl
    split at hl
    · next h =>
      have ho : o < original.length := h.1
      have ha : a < as.length := by simpa using h.2
      split at hl
      · next heq =>
        exfalso
        rw [List.get_eq_getElem, List.getElem_map] at heq
        exact absurd heq (by simp)
      · next num heq =>
        have hnum : as.get ⟨a, ha⟩ = num := by
          have h2 : (as.map Value.Number).get ⟨a, h.2⟩ =
              Value.Number (as.get ⟨a, ha⟩) := by
            simp [List.get_eq_getElem, List.getElem_map]
          rw [h2] at heq
          exact Value.Number.inj heq
        split_ifs at hl with h1 h2
        · -- Less: original[o] < num, skip o
          rw [ih (o + 1) a l hl]
          apply List.filter_congr
          intro x hx
          have hax : as.get ⟨a, ha⟩ ≤ x := sorted_drop_le as hsa a ha x hx
          have hxv : original.get ⟨o, h.1⟩ < x :=
            lt_of_lt_of_le (hnum ▸ h1) hax
          rw [decide_eq_decide, List.drop_eq_getElem_cons ho, List.mem_cons]
          have hne : x ≠ (original[o] : Int) := ne_of_gt hxv
          simp [hne]
        · -- Greater: num < original[o], skip a
          rw [ih o (a + 1) l hl, List.drop_eq_getElem_cons ha,
            List.filter_cons]
          have hnm : ¬ ((as.get ⟨a, ha⟩) ∈ original.drop o) := by
            intro hmem
            have hle := sorted_drop_le original hso o ho _ hmem
            rw [hnum] at hle
            exact absurd hle (not_le.mpr h2)
          rw [List.get_eq_getElem] at hnm
          simp [hnm]
        · -- Equal: push original[o], advance both
          have hveq : original.get ⟨o, h.1⟩ = num :=
            le_antisymm (not_lt.mp h2) (not_lt.mp h1)
          obtain ⟨rest, hrest, hcons⟩ := Option.map_eq_some'.mp hl
          subst hcons
          rw [ih (o + 1) (a + 1) rest hrest, List.drop_eq_getElem_cons ha,
            List.filter_cons]
          have hog : original.get ⟨o, h.1⟩ = as.get ⟨a, ha⟩ :=
            hveq.trans hnum.symm
          have hmem : (as[a] : Int) ∈ List.drop o original := by
            rw [List.drop_eq_getElem_cons ho]
            exact List.mem_cons.mpr (Or.inl hog.symm)
          rw [if_pos (decide_eq_true hmem)]
          have hhead : original.get ⟨o, h.1⟩ = (as[a] : Int) := hog
          rw [← hhead]
          congr 1
          apply List.filter_congr
          intro x hx
          have hax : as.get ⟨a, ha⟩ < x := sorted_drop_lt as hsa a ha x hx
          have hxv : original.get ⟨o, h.1⟩ < x := hog ▸ hax
          rw [decide_eq_decide, List.drop_eq_getElem_cons ho, List.mem_cons]
          have hne : x ≠ (original[o] : Int) := ne_of_gt hxv
          simp [hne]
    · next h =>
      cases hl
      rw [List.length_map] at h
      by_cases ha : as.length ≤ a
      · rw [List.drop_eq_nil_of_le ha]
        simp
      · have ho : original.length ≤ o := by omega
        rw [List.drop_eq_nil_of_le ho]
        simp

/-- Claim C4, counterexample: With sorted `available = [240, 360]` but the
allow-list ordered `[360, 240]`, the two-pointer walk skips past `240`
while looking for `360` and never returns to it: the code yields
`[360]`, not the full intersection `[360, 240]` the claim demands. -/
theorem reduce_by_allowed_order_counterexample :
    reduce_by_allowed [240, 360] (List.map Value.Number [360, 240]) =
      some [360]
    ∧ intersectSpec [240, 360] (List.map Value.Number [360, 240]) =
      [360, 240]
    ∧ ([360] : List Int) ≠ [360, 240] :=
  ⟨by decide, by decide, by decide⟩

/-- Claim C4, amended: For strictly ascending `available` and an
allow-list of `Number` entries with strictly ascending values,
`reduce_by_allowed` terminates and returns exactly the values present in
both sequences, in their common order (which is both the order of
appearance in `allowed` and in `available`). -/
theorem reduce_by_allowed_intersection (original as : List Int)
    (hso : List.Sorted (· < ·) original) (hsa : List.Sorted (· < ·) as) :
    reduce_by_allowed original (List.map Value.Number as) =
      some (intersectSpec original (List.map Value.Number as)) := by
  have hA : Value.Any ∉ List.map Value.Number as := by
    intro hmem
    rcases List.mem_map.mp hmem with ⟨x, _, hx⟩
    exact absurd hx (by simp)
  obtain ⟨l, hl⟩ := Option.isSome_iff_exists.mp
    (reduce_by_allowed_total original (List.map Value.Number as) hA)
  rw [hl]
  have hchar := rbaLoop_filter original as hso hsa _ 0 0 l hl
  rw [List.drop_zero, List.drop_zero] at hchar
  have hnums : ∀ bs : List Int,
      List.filterMap
        (fun x => match x with
          | Value.Any => none
          | Value.Number n => some n)
        (List.map Value.Number bs) = bs := by
    intro bs
    induction bs with
    | nil => rfl
    | cons b bs ihb =>
      rw [List.map_cons, List.filterMap_cons]
      exact congrArg (b :: ·) ihb
  have hspec : intersectSpec original (List.map Value.Number as) =
      List.filter (fun v => decide (v ∈ original)) as := by
    unfold intersectSpec
    rw [hnums as]
  rw [hspec, hchar]

/-- Witness for C4, amended, at
`available = [240, 360, 720]`, `allowed = [360, 720, 1080]`. -/
theorem reduce_by_allowed_intersection_witness :
    reduce_by_allowed [240, 360, 720]
        (List.map Value.Number [360, 720, 1080]) =
      some (intersectSpec [240, 360, 720]
        (List.map Value.Number [360, 720, 1080])) :=
  reduce_by_allowed_intersection [240, 360, 720] [360, 720, 1080]
    (by decide) (by decide)

/-! ## Nearest-preference property of `reduce_by_preferred` -/

lemma sorted_get_le (l : List Int) (hs : List.Sorted (· ≤ ·) l)
    (i j : Fin l.length) (hij : (i : Nat) ≤ (j : Nat)) :
    l.get i ≤ l.get j := by
  rcases Nat.eq_or_lt_of_le hij with heq | hlt
  · rw [Fin.ext heq]
  · exact List.pairwise_iff_get.mp hs i j hlt

/-- Exit analysis for the `reduce_by_preferred` loop: once the loop
condition fails, every still-pending preference `q ≥ p` already has its
nearest value in the accumulated output `acc`, given the cursor
invariants of `rbpLoop_nearest`. -/
lemma rbpLoop_nearest_exit (original ps : List Int)
    (hso : List.Sorted (· ≤ ·) original)
    (o p : Nat) (acc : List Int)
    (hcond : ¬(o < original.length ∧ p < ps.length))
    (hI1 : ∀ i : Fin original.length, (i : Nat) < o →
      ∀ q : Fin ps.length, p ≤ (q : Nat) → original.get i ≤ ps.get q)
    (hI2 : ∀ i : Fin original.length, (i : Nat) < o →
      ∀ q : Fin ps.length, p ≤ (q : Nat) →
        original.get i < ps.get q ∨ original.get i ∈ acc)
    (hI3 : original.length ≤ o →
      original.length = 0 ∨
        ∃ hi : original.length - 1 < original.length,
          original.get ⟨original.length - 1, hi⟩ ∈ acc)
    (q : Fin ps.length) (hq : p ≤ (q : Nat)) (d : Int)
    (hd : nearestPreferred original (ps.get q) d) :
    d ∈ acc := by
  have ho : original.length ≤ o := by
    by_contra hno
    have hp : ¬ p < ps.length := fun hp => hcond ⟨by omega, hp⟩
    have := q.isLt
    omega
  rcases hd with ⟨hmem, rfl⟩ | ⟨hnmem, hdmem, hlt, hmin⟩ |
    ⟨hnmem, hall, hdmem, hmax⟩
  · obtain ⟨i, hi⟩ := List.mem_iff_get.mp hmem
    rcases hI2 i (by have := i.isLt; omega) q hq with hlt2 | hacc
    · rw [hi] at hlt2
      exact absurd hlt2 (lt_irrefl _)
    · rw [hi] at hacc
      exact hacc
  · obtain ⟨i, hi⟩ := List.mem_iff_get.mp hdmem
    have hle := hI1 i (by have := i.isLt; omega) q hq
    rw [hi] at hle
    exact absurd (lt_of_lt_of_le hlt hle) (lt_irrefl _)
  · have hlen0 : original.length ≠ 0 := by
      intro h0
      rw [List.length_eq_zero] at h0
      rw [h0] at hdmem
      simp at hdmem
    rcases hI3 ho with h0 | ⟨hi, hlast⟩
    · exact absurd h0 hlen0
    · obtain ⟨i, hig⟩ := List.mem_iff_get.mp hdmem
      have hle1 : d ≤ original.get ⟨original.length - 1, hi⟩ := by
        rw [← hig]
        exact sorted_get_le original hso i ⟨original.length - 1, hi⟩
          (by show (i : Nat) ≤ original.length - 1
              have := i.isLt
              omega)
      have hle2 : original.get ⟨original.length - 1, hi⟩ ≤ d :=
        hmax _ (List.get_mem original _ _)
      rw [le_antisymm hle1 hle2]
      exact hlast

/-- Main loop invariant for `reduce_by_preferred` on ascending inputs.
`acc` is the (ghost) output pushed before reaching cursor state
`(o, p)`; `I1` says every skipped `original` entry is at most every
pending preference, `I2` that a skipped entry still below no pending
preference has been pushed, `I3` that when `original` is exhausted its
last element was just pushed.  Conclusion: the nearest value of every
pending preference ends up in the final output `acc ++ l`. -/
lemma rbpLoop_nearest (original ps : List Int)
    (hso : List.Sorted (· ≤ ·) original) (hsp : List.Sorted (· ≤ ·) ps) :
    ∀ (fuel o p : Nat) (acc : List Int),
      (∀ i : Fin original.length, (i : Nat) < o →
        ∀ q : Fin ps.length, p ≤ (q : Nat) →
          original.get i ≤ ps.get q) →
      (∀ i : Fin original.length, (i : Nat) < o →
        ∀ q : Fin ps.length, p ≤ (q : Nat) →
          original.get i < ps.get q ∨ original.get i ∈ acc) →
      (original.length ≤ o →
        original.length = 0 ∨
          ∃ hi : original.length - 1 < original.length,
            original.get ⟨original.length - 1, hi⟩ ∈ acc) →
      ∀ l, rbpLoop original (List.map Value.Number ps) fuel o p = some l →
      ∀ q : Fin ps.length, p ≤ (q : Nat) →
      ∀ d, nearestPreferred original (ps.get q) d →
        d ∈ acc ++ l := by
  intro fuel
  induction fuel with
  | zero =>
    intro o p acc hI1 hI2 hI3 l hl q hq d hd
    unfold rbpLoop at hl
    split at hl
    · exact absurd hl (by simp)
    · next h =>
      cases hl
      rw [List.length_map] at h
      rw [List.append_nil]
      exact rbpLoop_nearest_exit original ps hso o p acc h hI1 hI2 hI3 q hq d hd
  | succ fuel ih =>
    intro o p acc hI1 hI2 hI3 l hl q hq d hd
    unfold rbpLoop at hl
    split at hl
    · next h =>
      have ho : o < original.length := h.1
      have hp : p < ps.length := by simpa using h.2
      split at hl
      · next heq =>
        exfalso
        rw [List.get_eq_getElem, List.getElem_map] at heq
        exact absurd heq (by simp)
      · next num heq =>
        have hnum : ps.get ⟨p, hp⟩ = num := by
          have hgm : (List.map Value.Number ps).get ⟨p, h.2⟩ =
              Value.Number (ps.get ⟨p, hp⟩) := by
            simp [List.get_eq_getElem, List.getElem_map]
          rw [hgm] at heq
          exact Value.Number.inj heq
        split_ifs at hl with h1 h2 h3
        · -- Less arm, `original` exhausted: push `original[o]`
          obtain ⟨rest, hrest, hcons⟩ := Option.map_eq_some'.mp hl
          subst hcons
          have hI1' : ∀ i : Fin original.length, (i : Nat) < o + 1 →
              ∀ q' : Fin ps.length, p ≤ (q' : Nat) →
                original.get i ≤ ps.get q' := by
            intro i hi q' hq'
            rcases Nat.lt_succ_iff_lt_or_eq.mp hi with hio | hio
            · exact hI1 i hio q' hq'
            · have hieq : i = ⟨o, h.1⟩ := Fin.ext hio
              rw [hieq]
              exact le_trans
                (le_of_lt (lt_of_lt_of_eq h1 hnum.symm))
                (sorted_get_le ps hsp ⟨p, hp⟩ q' hq')
          have hI2' : ∀ i : Fin original.length, (i : Nat) < o + 1 →
              ∀ q' : Fin ps.length, p ≤ (q' : Nat) →
                original.get i < ps.get q' ∨
                original.get i ∈ acc ++ [original.get ⟨o, h.1⟩] := by
            intro i hi q' hq'
            rcases Nat.lt_succ_iff_lt_or_eq.mp hi with hio | hio
            · exact (hI2 i hio q' hq').imp id (List.mem_append_left _)
            · right
              have hieq : i = ⟨o, h.1⟩ := Fin.ext hio
              rw [hieq]
              exact List.mem_append_right _ (by simp)
          have hI3' : original.length ≤ o + 1 →
              original.length = 0 ∨
                ∃ hi : original.length - 1 < original.length,
                  original.get ⟨original.length - 1, hi⟩ ∈
                    acc ++ [original.get ⟨o, h.1⟩] := by
            intro _
            right
            refine ⟨by omega, ?_⟩
            have hieq : (⟨original.length - 1, by omega⟩ :
                Fin original.length) = ⟨o, h.1⟩ := Fin.ext (by show original.length - 1 = o; omega)
            rw [hieq]
            exact List.mem_append_right _ (by simp)
          have hres := ih (o + 1) p (acc ++ [original.get ⟨o, h.1⟩])
            hI1' hI2' hI3' rest hrest q hq d hd
          simpa [List.append_assoc] using hres
        · -- Less arm, more of `original` remains: no push
          refine ih (o + 1) p acc ?_ ?_ ?_ l hl q hq d hd
          · intro i hi q' hq'
            rcases Nat.lt_succ_iff_lt_or_eq.mp hi with hio | hio
            · exact hI1 i hio q' hq'
            · have hieq : i = ⟨o, h.1⟩ := Fin.ext hio
              rw [hieq]
              exact le_trans
                (le_of_lt (lt_of_lt_of_eq h1 hnum.symm))
                (sorted_get_le ps hsp ⟨p, hp⟩ q' hq')
          · intro i hi q' hq'
            rcases Nat.lt_succ_iff_lt_or_eq.mp hi with hio | hio
            · exact hI2 i hio q' hq'
            · left
              have hieq : i = ⟨o, h.1⟩ := Fin.ext hio
              rw [hieq]
              exact lt_of_lt_of_le
                (lt_of_lt_of_eq h1 hnum.symm)
                (sorted_get_le ps hsp ⟨p, hp⟩ q' hq')
          · intro hlen
            exact absurd hlen h2
        · -- Greater arm: push `original[o]`, advance `p_pointer`
          obtain ⟨rest, hrest, hcons⟩ := Option.map_eq_some'.mp hl
          subst hcons
          rcases Nat.eq_or_lt_of_le hq with heqq | hltq
          · have hqp : q = ⟨p, hp⟩ := Fin.ext heqq.symm
            rw [hqp, hnum] at hd
            rcases hd with ⟨hmem, rfl⟩ | ⟨hnmem, hdmem, hlt, hmin⟩ |
              ⟨hnmem, hall, hdmem, hmax⟩
            · obtain ⟨i, hi⟩ := List.mem_iff_get.mp hmem
              have hio : (i : Nat) < o := by
                by_contra hio
                have hle2 : original.get ⟨o, h.1⟩ ≤ original.get i :=
                  sorted_get_le original hso ⟨o, h.1⟩ i
                    (by show o ≤ (i : Nat); omega)
                rw [hi] at hle2
                exact absurd (lt_of_lt_of_le h3 hle2) (lt_irrefl _)
              rcases hI2 i hio q (le_of_eq heqq) with hlt2 | hacc
              · rw [hi, hqp, hnum] at hlt2
                exact absurd hlt2 (lt_irrefl _)
              · rw [hi] at hacc
                exact List.mem_append_left _ hacc
            · have hdv : d = original.get ⟨o, h.1⟩ := by
                have hle1 : d ≤ original.get ⟨o, h.1⟩ :=
                  hmin _ (List.get_mem original _ _) h3
                have hle2 : original.get ⟨o, h.1⟩ ≤ d := by
                  obtain ⟨i, hi⟩ := List.mem_iff_get.mp hdmem
                  have hio : ¬ (i : Nat) < o := by
                    intro hio
                    have hle3 := hI1 i hio q (le_of_eq heqq)
                    rw [hi, hqp, hnum] at hle3
                    exact absurd (lt_of_lt_of_le hlt hle3) (lt_irrefl _)
                  rw [← hi]
                  exact sorted_get_le original hso ⟨o, h.1⟩ i
                    (by show o ≤ (i : Nat); omega)
                exact le_antisymm hle1 hle2
              rw [hdv]
              exact List.mem_append_right _ (List.mem_cons_self _ _)
            · exact absurd h3 (hall _ (List.get_mem original _ _))
          · have hres := ih o (p + 1) (acc ++ [original.get ⟨o, h.1⟩])
              (fun i hi q' hq' => hI1 i hi q' (by omega))
              (fun i hi q' hq' =>
                (hI2 i hi q' (by omega)).imp id (List.mem_append_left _))
              (fun hlen => absurd hlen (by omega))
              rest hrest q (by omega) d hd
            simpa [List.append_assoc] using hres
        · -- Equal arm: push `original[o]`, advance both cursors
          have hveq : original.get ⟨o, h.1⟩ = num :=
            le_antisymm (not_lt.mp h3) (not_lt.mp h1)
          obtain ⟨rest, hrest, hcons⟩ := Option.map_eq_some'.mp hl
          subst hcons
          rcases Nat.eq_or_lt_of_le hq with heqq | hltq
          · have hqp : q = ⟨p, hp⟩ := Fin.ext heqq.symm
            rw [hqp, hnum] at hd
            rcases hd with ⟨hmem, rfl⟩ | ⟨hnmem, hrest2⟩ | ⟨hnmem, hrest2⟩
            · rw [← hveq]
              exact List.mem_append_right _ (List.mem_cons_self _ _)
            · exact absurd (hveq ▸ List.get_mem original o h.1) hnmem
            · exact absurd (hveq ▸ List.get_mem original o h.1) hnmem
          · have hI1' : ∀ i : Fin original.length, (i : Nat) < o + 1 →
                ∀ q' : Fin ps.length, p + 1 ≤ (q' : Nat) →
                  original.get i ≤ ps.get q' := by
              intro i hi q' hq'
              rcases Nat.lt_succ_iff_lt_or_eq.mp hi with hio | hio
              · exact hI1 i hio q' (by omega)
              · have hieq : i = ⟨o, h.1⟩ := Fin.ext hio
                rw [hieq]
                exact le_trans (le_of_eq (hveq.trans hnum.symm))
                  (sorted_get_le ps hsp ⟨p, hp⟩ q' (by show p ≤ (q' : Nat); omega))
            have hI2' : ∀ i : Fin original.length, (i : Nat) < o + 1 →
                ∀ q' : Fin ps.length, p + 1 ≤ (q' : Nat) →
                  original.get i < ps.get q' ∨
                  original.get i ∈ acc ++ [original.get ⟨o, h.1⟩] := by
              intro i hi q' hq'
              rcases Nat.lt_succ_iff_lt_or_eq.mp hi with hio | hio
              · exact (hI2 i hio q' (by omega)).imp id
                  (List.mem_append_left _)
              · right
                have hieq : i = ⟨o, h.1⟩ := Fin.ext hio
                rw [hieq]
                exact List.mem_append_right _ (by simp)
            have hI3' : original.length ≤ o + 1 →
                original.length = 0 ∨
                  ∃ hi : original.length - 1 < original.length,
                    original.get ⟨original.length - 1, hi⟩ ∈
                      acc ++ [original.get ⟨o, h.1⟩] := by
              intro _
              right
              refine ⟨by omega, ?_⟩
              have hieq : (⟨original.length - 1, by omega⟩ :
                  Fin original.length) = ⟨o, h.1⟩ :=
                Fin.ext (by show original.length - 1 = o; omega)
              rw [hieq]
              exact List.mem_append_right _ (by simp)
            have hres := ih (o + 1) (p + 1)
              (acc ++ [original.get ⟨o, h.1⟩])
              hI1' hI2' hI3' rest hrest q (by omega) d hd
            simpa [List.append_assoc] using hres
    · next h =>
      cases hl
      rw [List.length_map] at h
      rw [List.append_nil]
      exact rbpLoop_nearest_exit original ps hso o p acc h hI1 hI2 hI3 q hq d hd

/-- Claim C1, counterexample: With sorted `available = [240, 720]` and the
preference list `[1080, 100]` (all `Number` entries), the spec's nearest
value for `100` is `240` (the smallest available value greater than
`100`), but the code returns `[720]`: while scanning for `1080` the
`Less` arm exhausts `original`, pushes the last element once, and the
loop exits without ever examining the preference `100`. -/
theorem reduce_by_preferred_nearest_counterexample :
    reduce_by_preferred [240, 720] (List.map Value.Number [1080, 100]) =
      some [720]
    ∧ nearestPreferred [240, 720] 100 240
    ∧ (240 : Int) ∉ ([720] : List Int) :=
  ⟨by decide, by decide, by decide⟩

/-- Claim C1, amended: For ascending `available` and a preference vector
of `Number` entries whose values are also ascending, the result of
`reduce_by_preferred` includes, for each preference `pv`, the value `pv`
itself when it occurs in `available`, otherwise the smallest available
value greater than `pv`, or, when no greater value exists, the largest
available value less than `pv`. -/
theorem reduce_by_preferred_nearest (original ps : List Int)
    (hso : List.Sorted (· ≤ ·) original) (hsp : List.Sorted (· ≤ ·) ps)
    (l : List Int)
    (hl : reduce_by_preferred original (List.map Value.Number ps) = some l)
    (pv : Int) (hpv : pv ∈ ps) (d : Int)
    (hd : nearestPreferred original pv d) :
    d ∈ l := by
  obtain ⟨q, hq⟩ := List.mem_iff_get.mp hpv
  have hres := rbpLoop_nearest original ps hso hsp _ 0 0 []
    (fun i hi => absurd hi (by omega))
    (fun i hi => absurd hi (by omega))
    (fun hlen => Or.inl (by omega))
    l hl q (Nat.zero_le _) d (by rw [hq]; exact hd)
  simpa using hres

/-- Witness for C1, amended: on `available = [240, 360, 720]`,
`preferred = [100, 1080]` the code returns `[240, 720]`, which contains
`240`, the nearest value for the preference `100`. -/
theorem reduce_by_preferred_nearest_witness :
    (240 : Int) ∈ ([240, 720] : List Int) :=
  reduce_by_preferred_nearest [240, 360, 720] [100, 1080]
    (by decide) (by decide) [240, 720] (by decide) 100 (by decide)
    240 (by decide)

-- Sanity checks against the crate's own doctests and unit tests.
example :
    reduce_by_allowed [240, 360, 720]
      [Value.Number 360, Value.Number 720] = some [360, 720] := by decide
example :
    reduce_by_allowed [240, 720]
      [Value.Number 360, Value.Number 720] = some [720] := by decide
example :
    reduce_by_allowed [240]
      [Value.Number 360, Value.Number 720] = some [] := by decide
example :
    reduce_by_preferred [240, 360, 720] [Value.Number 360] =
      some [360] := by decide
example :
    reduce_by_preferred [360, 720] [Value.Number 1080] =
      some [720] := by decide
example :
    reduce_by_preferred [240, 360, 720]
      [Value.Number 240, Value.Number 1080] = some [240, 720] := by decide
example :
    reduce_by_preferred [240, 720]
      [Value.Number 240, Value.Number 360] = some [240, 720] := by decide
example :
    attempt [240, 360, 720] [Value.Number 360, Value.Number 720]
      [Value.Number 1080] = some [720] := by decide
example :
    attempt [240, 360, 720] [Value.Number 360, Value.Any]
      [Value.Number 360, Value.Number 720] = some [360, 720] := by decide
example :
    attempt [240, 360, 720] [Value.Any] [Value.Any] =
      some [240, 360, 720] := by decide
example :
    attempt [240, 360, 720] [Value.Number 360, Value.Number 1080]
      [Value.Any, Value.Number 720] = some [360] := by decide
example :
    attempt [240, 360]
      [Value.Number 240, Value.Number 360]
      [Value.Number 720, Value.Number 1080] = some [360] := by decide
